import Mathlib

/-!
Shallow embedding of the review-prioritization and progress-update engine of
`backend/server.py` (vocabulary-drilling service).  The MongoDB collections
are modelled as lists of documents in natural (insertion) order; timestamps
are abstract `Nat` clock values passed in by the caller; `str(uuid.uuid4())`
is modelled as an injective supply of fresh nonempty identifier strings
driven by a counter threaded through the operations.
-/

namespace Frenchy

/-- A document of the `words` collection (catalog entry), lines 42-52 and
266-273 of `backend/server.py`.  The pronunciation field is named `pron`
here; the engine never reads it. -/
structure Word where
  id : String
  french : String
  russian : String
  pron : String
deriving DecidableEq

/-- A document of the `word_progress` collection, lines 57-68 and 328-335 of
`backend/server.py`.  `status` is kept as a raw string exactly as in the
source; `next_review` is optional because the (dead) insert branch of
`update_word_progress` builds a document without that field. -/
structure WordProgressDoc where
  id : String
  word_id : String
  status : String
  strength : Int
  next_review : Option Nat
  updated_at : Nat
deriving DecidableEq

/-- The `word_progress` collection in natural (insertion) order. -/
abbrev ProgressStore := List WordProgressDoc

/-- Model of `str(uuid.uuid4())`: a supply of fresh identifier strings,
indexed by a counter.  The only property of real uuid strings that the
development relies on is that they are nonempty (a uuid string has 36
characters), which makes the fresh dict built at lines 401-408 truthy
under `if progress.get("id")` at line 430. -/
def uuid4 (n : Nat) : String := "uuid-" ++ toString n

/-- Mongo `find_one({"word_id": w})` (line 397): the first matching document
in natural order. -/
def findOneByWordId (s : ProgressStore) (w : String) : Option WordProgressDoc :=
  s.find? (fun p => p.word_id == w)

/-- The dictionary `progress_by_word_id = {p["word_id"]: p for p in all_progress}`
built at line 322: a Python dict comprehension keeps the LAST document for a
duplicated key, so lookup returns the last matching record. -/
def dictGet (s : ProgressStore) (w : String) : Option WordProgressDoc :=
  (s.filter (fun p => p.word_id == w)).getLast?

/-- `progress_by_word_id.get(wid, {}).get("status")` (lines 345, 351, 360):
`None` when the word has no record. -/
def statusGet (s : ProgressStore) (w : String) : Option String :=
  (dictGet s w).map WordProgressDoc.status

/-- `progress_by_word_id.get(wid, {}).get("strength", 0)` (lines 354, 377):
defaults to `0` when the word has no record. -/
def strengthGet (s : ProgressStore) (w : String) : Int :=
  match dictGet s w with
  | some p => p.strength
  | none => 0

/-- The fresh progress document built at lines 328-335 (and identically at
lines 401-408): status `new`, strength `0`, both timestamps `now`. -/
def freshRecord (n : Nat) (now : Nat) (w : String) : WordProgressDoc :=
  { id := uuid4 n, word_id := w, status := "new", strength := 0,
    next_review := some now, updated_at := now }

/-- The lazy-initialization loop of `get_flashcards` (lines 325-337): for
every catalog word without a progress record, insert a fresh `new`/`0`
record (`insert_one` appends in natural order) and record it in the dict.
The evolving dict always agrees with `dictGet` on the evolving store, so
the store alone is threaded. -/
def lazyInitLoop (now : Nat) : List Word → ProgressStore → Nat → ProgressStore × Nat
  | [], s, n => (s, n)
  | w :: ws, s, n =>
    match dictGet s w.id with
    | some _ => lazyInitLoop now ws s n
    | none => lazyInitLoop now ws (s ++ [freshRecord n now w.id]) (n + 1)

/-- Python list slicing `xs[:k]` for a possibly negative `k` (line 367):
a nonnegative `k` keeps the first `k` elements; a negative `k` keeps all
but the last `-k` elements. -/
def pySlice (xs : List α) (k : Int) : List α :=
  if 0 ≤ k then xs.take k.toNat else xs.take (xs.length - (-k).toNat)

/-- The comparison used by `learning_words.sort(key=...)` at lines 353-355:
ascending by stored strength. -/
def strengthLE (s : ProgressStore) (a b : Word) : Prop :=
  strengthGet s a.id ≤ strengthGet s b.id

instance (s : ProgressStore) : DecidableRel (strengthLE s) :=
  fun a b => inferInstanceAs (Decidable (strengthGet s a.id ≤ strengthGet s b.id))

instance (s : ProgressStore) : IsTotal Word (strengthLE s) :=
  ⟨fun a b => Int.le_total (strengthGet s a.id) (strengthGet s b.id)⟩

instance (s : ProgressStore) : IsTrans Word (strengthLE s) :=
  ⟨fun _ _ _ h h2 => le_trans h h2⟩

/-- One element of the response of `get_flashcards` (lines 73-79, 370-380). -/
structure FlashcardResponse where
  id : String
  french : String
  russian : String
  pron : String
  status : String
  strength : Int
deriving DecidableEq

/-- The formatting step at lines 370-380: status defaults to `"new"` and
strength to `0` when the dict has no entry. -/
def mkFlashcard (s : ProgressStore) (w : Word) : FlashcardResponse :=
  { id := w.id, french := w.french, russian := w.russian, pron := w.pron,
    status := (statusGet s w.id).getD "new",
    strength := strengthGet s w.id }

/-- The priority list built at lines 340-364: catalog words with status
`new`, then those with status `learning` sorted ascending by strength
(Python `list.sort` is a stable sort, modelled by the stable
`List.insertionSort`), then those with status `known`.  Each filter keeps
catalog order. -/
def combinedBatch (words : List Word) (s : ProgressStore) : List Word :=
  (words.filter (fun w => statusGet s w.id == some "new")) ++
    (List.insertionSort (strengthLE s)
      (words.filter (fun w => statusGet s w.id == some "learning"))) ++
    (words.filter (fun w => statusGet s w.id == some "known"))

/-- `GET /api/flashcards` (lines 311-382): lazily initialize missing
progress records, build the priority list, truncate with Python slicing,
format.  Returns the flashcards together with the updated store and uuid
counter. -/
def get_flashcards (limit : Int) (words : List Word) (s0 : ProgressStore)
    (now n : Nat) : List FlashcardResponse × ProgressStore × Nat :=
  let sn := lazyInitLoop now words s0 n
  ((pySlice (combinedBatch words sn.1) limit).map (mkFlashcard sn.1), sn.1, sn.2)

/-- Outcome of `POST /api/flashcards/{word_id}/update`: HTTP 404 or the
`{"success": True, "new_status": ..., "new_strength": ...}` body. -/
inductive UpdateResult where
  | notFound
  | ok (new_status : String) (new_strength : Int)
deriving DecidableEq

/-- Strength update of lines 414-421: increment clamped at 5 on a correct
response, decrement clamped at 0 otherwise. -/
def newStrength (known : Bool) (cur : Int) : Int :=
  if known then min (cur + 1) 5 else max (cur - 1) 0

/-- Status update of lines 414-421, applied to the new strength. -/
def newStatus (known : Bool) (ns : Int) : String :=
  if known then (if 5 ≤ ns then "known" else "learning")
  else (if ns = 0 then "new" else "learning")

/-- Mongo `update_one({"id": i}, {"$set": {...}})` (lines 432-435): replace
the status, strength and updated-at fields of the FIRST document whose
`id` equals `i`; a filter that matches nothing changes nothing (no
upsert). -/
def updateOneById (i st : String) (stg : Int) (now : Nat) : ProgressStore → ProgressStore
  | [] => []
  | p :: ps =>
    if p.id = i then { p with status := st, strength := stg, updated_at := now } :: ps
    else p :: updateOneById i st stg now ps

/-- `POST /api/flashcards/{word_id}/update` (lines 384-442).  When the word
is absent from the catalog the call fails with 404 and nothing changes.
Otherwise the first progress record for the word is loaded (a fresh
`new`/`0` document with a fresh uuid is built, but NOT inserted, when none
exists), the transition of lines 414-421 is applied, and the result is
written back with `update_one` keyed by the loaded document's id — the
insert branch of lines 436-440 runs only when that id is falsy. -/
def update_word_progress (word_id : String) (known : Bool) (words : List Word)
    (s : ProgressStore) (now n : Nat) : UpdateResult × ProgressStore × Nat :=
  match words.find? (fun w => w.id == word_id) with
  | none => (UpdateResult.notFound, s, n)
  | some _ =>
    let pn : WordProgressDoc × Nat :=
      match findOneByWordId s word_id with
      | some p => (p, n)
      | none => (freshRecord n now word_id, n + 1)
    let ns := newStrength known pn.1.strength
    let st := newStatus known ns
    if pn.1.id ≠ "" then
      (UpdateResult.ok st ns, updateOneById pn.1.id st ns now s, pn.2)
    else
      (UpdateResult.ok st ns,
        s ++ [{ id := uuid4 pn.2, word_id := word_id, status := st, strength := ns,
                next_review := none, updated_at := now }], pn.2 + 1)

/-- Response of `GET /api/stats` (lines 81-86, 460-466).  Python's float
division at line 458 is modelled as exact rational arithmetic; on the
spec's worked example `3 / 10 * 100` the IEEE double result is exactly
`30.0`, so model and code agree there. -/
structure UserStats where
  known_words : Nat
  learning_words : Nat
  new_words : Int
  total_words : Nat
  progress_percentage : ℚ
deriving DecidableEq

/-- `GET /api/stats` (lines 444-466): count documents, derive the new-word
count by subtraction, guard the percentage against a zero catalog. -/
def get_user_stats (words : List Word) (s : ProgressStore) : UserStats :=
  let total := words.length
  let known := (s.filter (fun p => p.status == "known")).length
  let learning := (s.filter (fun p => p.status == "learning")).length
  { known_words := known, learning_words := learning,
    new_words := (total : Int) - (known : Int) - (learning : Int),
    total_words := total,
    progress_percentage :=
      if 0 < total then (known : ℚ) / (total : ℚ) * 100 else 0 }

/-- The spec's status-of-strength function (§8 of the spec): strength 0 is
`new`, strengths 1-4 are `learning`, strength 5 is `known`. -/
def statusOfStrength (s : Int) : String :=
  if s = 0 then "new" else if s ≤ 4 then "learning" else "known"

/-- The spec's consistency invariant on a progress record: strength within
[0,5] and status derived from it by `statusOfStrength`. -/
def recordInv (p : WordProgressDoc) : Prop :=
  0 ≤ p.strength ∧ p.strength ≤ 5 ∧ p.status = statusOfStrength p.strength

/-- One response applied to a (status, strength) pair, using the source's
transition of lines 414-421. -/
def applyResponse (st : String × Int) (k : Bool) : String × Int :=
  (newStatus k (newStrength k st.2), newStrength k st.2)

/-- A sequence of responses applied in order. -/
def runResponses (st : String × Int) (l : List Bool) : String × Int :=
  l.foldl applyResponse st

/-- The spec's stored-strength reading for `RecordResponse`: the first
record for the word, defaulting to 0 when absent. -/
def storedStrength (s : ProgressStore) (w : String) : Int :=
  match findOneByWordId s w with
  | some p => p.strength
  | none => 0

/-- Number of progress records held for one word. -/
def countFor (s : ProgressStore) (w : String) : Nat :=
  (s.filter (fun p => p.word_id == w)).length

/-- Default document used with `List.getD` in frame statements. -/
def dfltDoc : WordProgressDoc :=
  { id := "", word_id := "", status := "", strength := 0,
    next_review := none, updated_at := 0 }

/-! ### Concrete example data (spec §8) -/

/-- Example catalog: W1 new, W2 learning strength 3, W3 learning strength 1,
W4 known. -/
def exWords : List Word :=
  [{ id := "w1", french := "a", russian := "x", pron := "" },
   { id := "w2", french := "b", russian := "y", pron := "" },
   { id := "w3", french := "c", russian := "z", pron := "" },
   { id := "w4", french := "d", russian := "t", pron := "" }]

/-- Progress for the example catalog; W1 intentionally has no record and is
materialized by lazy initialization. -/
def exStore : ProgressStore :=
  [{ id := "p2", word_id := "w2", status := "learning", strength := 3,
     next_review := none, updated_at := 0 },
   { id := "p3", word_id := "w3", status := "learning", strength := 1,
     next_review := none, updated_at := 0 },
   { id := "p4", word_id := "w4", status := "known", strength := 5,
     next_review := none, updated_at := 0 }]

/-- Ten-word catalog for the stats example. -/
def exTenWords : List Word :=
  ["t0", "t1", "t2", "t3", "t4", "t5", "t6", "t7", "t8", "t9"].map
    (fun i => { id := i, french := "f", russian := "r", pron := "" })

/-- Progress store with 3 known and 2 learning records for the stats
example. -/
def exStatsStore : ProgressStore :=
  [{ id := "q0", word_id := "t0", status := "known", strength := 5,
     next_review := none, updated_at := 0 },
   { id := "q1", word_id := "t1", status := "known", strength := 5,
     next_review := none, updated_at := 0 },
   { id := "q2", word_id := "t2", status := "known", strength := 5,
     next_review := none, updated_at := 0 },
   { id := "q3", word_id := "t3", status := "learning", strength := 2,
     next_review := none, updated_at := 0 },
   { id := "q4", word_id := "t4", status := "learning", strength := 4,
     next_review := none, updated_at := 0 }]

/-! ### Claim theorems -/

/-- C1: for every stored strength (read from the first record for the word,
defaulting to 0 when absent — in particular the transition still runs when
no record exists), `RecordResponse` with `knewIt = true` returns strength
`min(s+1, 5)` with status `known` when the new strength reaches 5 and
`learning` otherwise; with `knewIt = false` it returns `max(s-1, 0)` with
status `new` when the new strength is 0 and `learning` otherwise. -/
theorem C1_transition (word_id : String) (knewIt : Bool) (words : List Word)
    (s : ProgressStore) (now n : Nat)
    (h : (words.find? (fun w => w.id == word_id)).isSome) :
    (update_word_progress word_id knewIt words s now n).1 =
      (if knewIt then
        UpdateResult.ok
          (if 5 ≤ min (storedStrength s word_id + 1) 5 then "known" else "learning")
          (min (storedStrength s word_id + 1) 5)
      else
        UpdateResult.ok
          (if max (storedStrength s word_id - 1) 0 = 0 then "new" else "learning")
          (max (storedStrength s word_id - 1) 0)) := by
  obtain ⟨w, hw⟩ := Option.isSome_iff_exists.mp h
  unfold update_word_progress
  rw [hw]
  unfold storedStrength newStrength newStatus
  cases hp : findOneByWordId s word_id <;> cases knewIt <;>
    simp only [freshRecord] <;> split <;> rfl

/-- Witness for C1 at a concrete input: word `w2` is stored at strength 3,
one correct response yields `learning` at strength 4. -/
theorem C1_transition_witness :
    (update_word_progress "w2" true exWords exStore 7 0).1 =
      UpdateResult.ok "learning" 4 :=
  (C1_transition "w2" true exWords exStore 7 0 (by decide)).trans (by decide)

/-- C2 (code bug witness): when no progress record exists for a catalog
word, `update_word_progress` computes and returns the new state but
persists nothing — the freshly built dict has a (nonempty) uuid id, so the
code takes the `update_one` branch with a filter that matches no document
and the insert branch of lines 437-440 is unreachable.  Here the store is
empty before and, contrary to the claim, still empty after. -/
theorem C2_lost_write :
    update_word_progress "w1" true exWords ([] : ProgressStore) 5 0 =
      (UpdateResult.ok "learning" 1, ([] : ProgressStore), 1) := by decide

/-- C4: `RecordResponse` on a word identifier absent from the catalog fails
with `NotFound` and leaves the progress store (and the uuid counter)
unchanged. -/
theorem C4_not_found (word_id : String) (known : Bool) (words : List Word)
    (s : ProgressStore) (now n : Nat) (h : ∀ w ∈ words, w.id ≠ word_id) :
    update_word_progress word_id known words s now n =
      (UpdateResult.notFound, s, n) := by
  have hf : words.find? (fun w => w.id == word_id) = none := by
    rw [List.find?_eq_none]
    intro w hw
    simpa using h w hw
  unfold update_word_progress
  rw [hf]

/-- Witness for C4 at a concrete input: identifier `zz` is not in the
example catalog. -/
theorem C4_not_found_witness :
    update_word_progress "zz" true exWords exStore 0 0 =
      (UpdateResult.notFound, exStore, 0) :=
  C4_not_found "zz" true exWords exStore 0 0 (by decide)

/-- A uuid string is nonempty. -/
theorem uuid4_ne_empty (n : Nat) : uuid4 n ≠ "" := by
  intro h
  have h0 : (uuid4 n).length = 0 := by rw [h]; rfl
  have h5 : ("uuid-" : String).length = 5 := rfl
  rw [uuid4, String.length_append] at h0
  omega

/-- Members of the store after a `$set` keyed by id are either untouched old
members or one old member with the three written fields replaced. -/
theorem mem_updateOneById {i st : String} {stg : Int} {now : Nat}
    {s : ProgressStore} {p : WordProgressDoc}
    (h : p ∈ updateOneById i st stg now s) :
    p ∈ s ∨ ∃ q, q ∈ s ∧
      p = { q with status := st, strength := stg, updated_at := now } := by
  induction s with
  | nil => simp [updateOneById] at h
  | cons q qs ih =>
    simp only [updateOneById] at h
    by_cases hq : q.id = i
    · rw [if_pos hq] at h
      rcases List.mem_cons.mp h with h1 | h1
      · exact Or.inr ⟨q, List.mem_cons_self q qs, h1⟩
      · exact Or.inl (List.mem_cons_of_mem _ h1)
    · rw [if_neg hq] at h
      rcases List.mem_cons.mp h with h1 | h1
      · exact Or.inl (by simp [h1])
      · rcases ih h1 with h2 | ⟨r, hr, he⟩
        · exact Or.inl (List.mem_cons_of_mem _ h2)
        · exact Or.inr ⟨r, List.mem_cons_of_mem _ hr, he⟩

/-- The transition of lines 414-421 keeps the new strength within `[0,5]`
and derives the new status from the new strength by the spec's fixed
function, whenever the current strength is within `[0,5]`. -/
theorem transition_inv (k : Bool) (s : Int) (h0 : 0 ≤ s) (h5 : s ≤ 5) :
    newStatus k (newStrength k s) = statusOfStrength (newStrength k s) ∧
      0 ≤ newStrength k s ∧ newStrength k s ≤ 5 := by
  interval_cases s <;> cases k <;> decide

/-- C6: in every progress record the system produces, status equals the
fixed function of strength (0 is `new`, 1-4 are `learning`, 5 is `known`):
the transition preserves this together with the `[0,5]` strength bounds,
lazily initialized records satisfy it, any sequence of responses starting
from a consistent (status, strength) pair stays consistent, and
`RecordResponse` keeps every stored record consistent. -/
theorem C6_status_strength_invariant :
    (∀ s : Int, 0 ≤ s → s ≤ 5 → ∀ k : Bool,
        newStatus k (newStrength k s) = statusOfStrength (newStrength k s) ∧
          0 ≤ newStrength k s ∧ newStrength k s ≤ 5) ∧
    (∀ n now w, recordInv (freshRecord n now w)) ∧
    (∀ (l : List Bool) (st : String × Int),
        0 ≤ st.2 → st.2 ≤ 5 → st.1 = statusOfStrength st.2 →
        0 ≤ (runResponses st l).2 ∧ (runResponses st l).2 ≤ 5 ∧
          (runResponses st l).1 = statusOfStrength (runResponses st l).2) ∧
    (∀ (word_id : String) (k : Bool) (words : List Word) (s : ProgressStore)
        (now n : Nat), (∀ p ∈ s, recordInv p) →
        ∀ p ∈ (update_word_progress word_id k words s now n).2.1, recordInv p) := by
  refine ⟨fun s h0 h5 k => transition_inv k s h0 h5, ?_, ?_, ?_⟩
  · intro n now w
    refine ⟨?_, ?_, ?_⟩ <;> simp [freshRecord, statusOfStrength]
  · intro l
    induction l with
    | nil => intro st h0 h5 hs; exact ⟨h0, h5, hs⟩
    | cons k t ih =>
      intro st h0 h5 hs
      have h := transition_inv k st.2 h0 h5
      have he : runResponses st (k :: t) = runResponses (applyResponse st k) t := rfl
      rw [he]
      exact ih (applyResponse st k) h.2.1 h.2.2 h.1
  · intro word_id k words s now n hs p hp
    cases hw : words.find? (fun w => w.id == word_id) with
    | none =>
      simp only [update_word_progress, hw] at hp
      exact hs p hp
    | some w =>
      cases hf : findOneByWordId s word_id with
      | some q =>
        have hq : recordInv q := hs q (List.mem_of_find?_eq_some hf)
        have ht := transition_inv k q.strength hq.1 hq.2.1
        simp only [update_word_progress, hw, hf] at hp
        split at hp
        · rcases mem_updateOneById hp with h1 | ⟨r, _, he⟩
          · exact hs p h1
          · exact he ▸ ⟨ht.2.1, ht.2.2, ht.1⟩
        · rcases List.mem_append.mp hp with h1 | h1
          · exact hs p h1
          · rw [List.mem_singleton.mp h1]
            exact ⟨ht.2.1, ht.2.2, ht.1⟩
      | none =>
        have ht := transition_inv k 0 (le_refl 0) (by norm_num)
        simp only [update_word_progress, hw, hf, freshRecord] at hp
        split at hp
        · rcases mem_updateOneById hp with h1 | ⟨r, _, he⟩
          · exact hs p h1
          · exact he ▸ ⟨ht.2.1, ht.2.2, ht.1⟩
        · rcases List.mem_append.mp hp with h1 | h1
          · exact hs p h1
          · rw [List.mem_singleton.mp h1]
            exact ⟨ht.2.1, ht.2.2, ht.1⟩

/-- Witness for C6 at a concrete input: a consistent starting pair and a
concrete response sequence stay consistent. -/
theorem C6_status_strength_invariant_witness :
    (0 : Int) ≤ 0 ∧ (0 : Int) ≤ 5 ∧
    (0 ≤ (runResponses ("new", 0) [true, true, false]).2 ∧
      (runResponses ("new", 0) [true, true, false]).2 ≤ 5 ∧
      (runResponses ("new", 0) [true, true, false]).1 =
        statusOfStrength (runResponses ("new", 0) [true, true, false]).2) :=
  ⟨by decide, by decide,
    C6_status_strength_invariant.2.2.1 [true, true, false] ("new", 0)
      (by decide) (by decide) (by decide)⟩

/-- C8: stats derive the new-word count by subtraction from the catalog
size (so untouched words count as new even with no record at all), the
percentage is known/total*100 guarded to 0 for an empty catalog, and on
the worked example (10 words, 3 known, 2 learning) this yields 5 new words
and exactly 30 percent. -/
theorem C8_stats :
    (∀ (words : List Word) (s : ProgressStore),
        (get_user_stats words s).new_words =
          (words.length : Int) -
            ((s.filter (fun p => p.status == "known")).length : Int) -
            ((s.filter (fun p => p.status == "learning")).length : Int)) ∧
    (∀ s : ProgressStore, (get_user_stats [] s).progress_percentage = 0) ∧
    (∀ (words : List Word) (s : ProgressStore), 0 < words.length →
        (get_user_stats words s).progress_percentage =
          ((s.filter (fun p => p.status == "known")).length : ℚ) /
            (words.length : ℚ) * 100) ∧
    (get_user_stats exTenWords exStatsStore =
      { known_words := 3, learning_words := 2, new_words := 5,
        total_words := 10, progress_percentage := 30 }) ∧
    (get_user_stats exTenWords [] =
      { known_words := 0, learning_words := 0, new_words := 10,
        total_words := 10, progress_percentage := 0 }) := by
  refine ⟨fun words s => rfl, fun s => rfl, ?_, ?_, ?_⟩
  · intro words s h
    unfold get_user_stats
    simp only [if_pos h]
  · simp only [get_user_stats, exTenWords, exStatsStore, List.map,
      List.filter_cons, List.filter_nil,
      (by decide : (("learning" : String) == "known") = false),
      (by decide : (("known" : String) == "known") = true),
      (by decide : (("known" : String) == "learning") = false),
      (by decide : (("learning" : String) == "learning") = true)]
    norm_num
  · simp only [get_user_stats, exTenWords, List.map, List.filter_nil]
    norm_num

/-- Witness for C8 at a concrete input: the ten-word example catalog is
nonempty and the percentage formula evaluates there. -/
theorem C8_stats_witness :
    0 < exTenWords.length ∧
    (get_user_stats exTenWords exStatsStore).progress_percentage =
      ((exStatsStore.filter (fun p => p.status == "known")).length : ℚ) /
        (exTenWords.length : ℚ) * 100 :=
  ⟨by decide, C8_stats.2.2.1 exTenWords exStatsStore (by decide)⟩

/-! ### Stable-sort and slicing lemmas -/

/-- Filtering by `p` commutes with `orderedInsert`, provided every element
the insertion walks past fails `p` whenever `x` itself satisfies it.  This
is the key stability property of insertion sort. -/
theorem filter_orderedInsert (r : α → α → Prop) [DecidableRel r] (p : α → Bool)
    (x : α) (l : List α)
    (hx : p x = true → ∀ y ∈ l, ¬ r x y → p y = false) :
    (List.orderedInsert r x l).filter p =
      if p x then x :: l.filter p else l.filter p := by
  induction l with
  | nil =>
    cases hp : p x <;> simp [List.orderedInsert, List.filter, hp]
  | cons y ys ih =>
    by_cases hr : r x y
    · rw [List.orderedInsert, if_pos hr]
      cases hp : p x <;> simp [List.filter_cons, hp]
    · rw [List.orderedInsert, if_neg hr, List.filter_cons]
      cases hp : p x with
      | true =>
        have hy : p y = false := hx hp y (List.mem_cons_self y ys) hr
        rw [ih (fun hpx z hz hrz => hx hpx z (List.mem_cons_of_mem _ hz) hrz)]
        simp [hp, hy, List.filter_cons]
      | false =>
        rw [ih (fun hpx => absurd hpx (by simp [hp]))]
        simp [hp, List.filter_cons]

/-- Stability of `insertionSort` stated through filters: sorting does not
reorder the elements picked out by `p`, provided `p` can only distinguish
elements the sort considers strictly ordered. -/
theorem filter_insertionSort (r : α → α → Prop) [DecidableRel r] (p : α → Bool)
    (l : List α)
    (h : ∀ x ∈ l, p x = true → ∀ y ∈ l, ¬ r x y → p y = false) :
    (List.insertionSort r l).filter p = l.filter p := by
  induction l with
  | nil => rfl
  | cons x xs ih =>
    have hx : p x = true → ∀ y ∈ List.insertionSort r xs, ¬ r x y → p y = false := by
      intro hpx y hy hr
      exact h x (List.mem_cons_self x xs) hpx y
        (List.mem_cons_of_mem _ ((List.mem_insertionSort r).mp hy)) hr
    calc (List.insertionSort r (x :: xs)).filter p
        = (List.orderedInsert r x (List.insertionSort r xs)).filter p := rfl
      _ = if p x then x :: (List.insertionSort r xs).filter p
            else (List.insertionSort r xs).filter p := filter_orderedInsert r p x _ hx
      _ = (x :: xs).filter p := by
          rw [ih (fun a ha hpa y hy hr =>
            h a (List.mem_cons_of_mem _ ha) hpa y (List.mem_cons_of_mem _ hy) hr)]
          cases hp : p x <;> simp [List.filter_cons, hp]

/-- Python slicing commutes with `map`. -/
theorem pySlice_map (f : α → β) (l : List α) (k : Int) :
    pySlice (l.map f) k = (pySlice l k).map f := by
  unfold pySlice
  split <;> simp [List.map_take]

/-- Python slicing yields a sublist. -/
theorem pySlice_sublist (l : List α) (k : Int) : List.Sublist (pySlice l k) l := by
  unfold pySlice
  split <;> exact List.take_sublist _ _

/-- A nonnegative bound at least the length slices to the whole list. -/
theorem pySlice_of_le (l : List α) (k : Int) (h : (l.length : Int) ≤ k) :
    pySlice l k = l := by
  have h0 : 0 ≤ k := le_trans (Int.ofNat_nonneg _) h
  unfold pySlice
  rw [if_pos h0]
  exact List.take_of_length_le (by omega)

/-- Three mutually exclusive filters together keep at most every element. -/
theorem three_filter_length_le (p q r : α → Bool) (l : List α)
    (hpq : ∀ x, ¬(p x = true ∧ q x = true))
    (hpr : ∀ x, ¬(p x = true ∧ r x = true))
    (hqr : ∀ x, ¬(q x = true ∧ r x = true)) :
    (l.filter p).length + (l.filter q).length + (l.filter r).length
      ≤ l.length := by
  induction l with
  | nil => simp
  | cons a t ih =>
    have h1 := hpq a
    have h2 := hpr a
    have h3 := hqr a
    simp only [List.filter_cons, List.length_cons]
    cases hp : p a <;> cases hq : q a <;> cases hr : r a <;>
      simp_all <;> omega

/-- Three mutually exclusive, jointly exhaustive filters enumerate the list
up to permutation. -/
theorem three_filter_perm (p q r : α → Bool) (l : List α)
    (hall : ∀ x ∈ l, p x = true ∨ q x = true ∨ r x = true)
    (hpq : ∀ x, ¬(p x = true ∧ q x = true))
    (hpr : ∀ x, ¬(p x = true ∧ r x = true))
    (hqr : ∀ x, ¬(q x = true ∧ r x = true)) :
    List.Perm (l.filter p ++ l.filter q ++ l.filter r) l := by
  induction l with
  | nil => simp
  | cons a t ih =>
    have iht := ih (fun x hx => hall x (List.mem_cons_of_mem _ hx))
    rcases hall a (List.mem_cons_self a t) with ha | ha | ha
    · have hqa : q a = false := by
        cases hq : q a
        · rfl
        · exact absurd ⟨ha, hq⟩ (hpq a)
      have hra : r a = false := by
        cases hr : r a
        · rfl
        · exact absurd ⟨ha, hr⟩ (hpr a)
      have e1 : List.filter p (a :: t) = a :: t.filter p := by
        simp [List.filter_cons, ha]
      have e2 : List.filter q (a :: t) = t.filter q := by
        simp [List.filter_cons, hqa]
      have e3 : List.filter r (a :: t) = t.filter r := by
        simp [List.filter_cons, hra]
      rw [e1, e2, e3]
      exact List.Perm.cons a iht
    · have hpa : p a = false := by
        cases hp : p a
        · rfl
        · exact absurd ⟨hp, ha⟩ (hpq a)
      have hra : r a = false := by
        cases hr : r a
        · rfl
        · exact absurd ⟨ha, hr⟩ (hqr a)
      have e1 : List.filter p (a :: t) = t.filter p := by
        simp [List.filter_cons, hpa]
      have e2 : List.filter q (a :: t) = a :: t.filter q := by
        simp [List.filter_cons, ha]
      have e3 : List.filter r (a :: t) = t.filter r := by
        simp [List.filter_cons, hra]
      rw [e1, e2, e3]
      have e4 : t.filter p ++ (a :: t.filter q) ++ t.filter r
          = t.filter p ++ a :: (t.filter q ++ t.filter r) := by
        rw [List.append_assoc]
        rfl
      rw [e4]
      refine List.Perm.trans List.perm_middle ?_
      rw [← List.append_assoc]
      exact List.Perm.cons a iht
    · have hpa : p a = false := by
        cases hp : p a
        · rfl
        · exact absurd ⟨hp, ha⟩ (hpr a)
      have hqa : q a = false := by
        cases hq : q a
        · rfl
        · exact absurd ⟨hq, ha⟩ (hqr a)
      have e1 : List.filter p (a :: t) = t.filter p := by
        simp [List.filter_cons, hpa]
      have e2 : List.filter q (a :: t) = t.filter q := by
        simp [List.filter_cons, hqa]
      have e3 : List.filter r (a :: t) = a :: t.filter r := by
        simp [List.filter_cons, ha]
      rw [e1, e2, e3]
      exact List.Perm.trans List.perm_middle (List.Perm.cons a iht)

/-! ### Lazy-initialization lemmas -/

/-- Unfolding `get_flashcards`. -/
theorem get_flashcards_eq (limit : Int) (words : List Word) (s0 : ProgressStore)
    (now n : Nat) :
    get_flashcards limit words s0 now n =
      ((pySlice (combinedBatch words (lazyInitLoop now words s0 n).1) limit).map
          (mkFlashcard (lazyInitLoop now words s0 n).1),
        (lazyInitLoop now words s0 n).1, (lazyInitLoop now words s0 n).2) := rfl

/-- A flashcard carries the id of the word it was formatted from. -/
theorem map_id_mkFlashcard (s : ProgressStore) (l : List Word) :
    (l.map (mkFlashcard s)).map FlashcardResponse.id = l.map Word.id := by
  rw [List.map_map]
  rfl

/-- The dict lookup on an extended store prefers the extension. -/
theorem dictGet_append (s t : ProgressStore) (w : String) :
    dictGet (s ++ t) w = (dictGet t w).or (dictGet s w) := by
  unfold dictGet
  rw [List.filter_append, List.getLast?_append]

/-- The lazy-initialization loop only appends, and appends only fresh
`new`/`0` records for catalog words. -/
theorem lazyInit_append (now : Nat) (ws : List Word) :
    ∀ (s : ProgressStore) (n : Nat), ∃ ext : ProgressStore,
      (lazyInitLoop now ws s n).1 = s ++ ext ∧
      ∀ p ∈ ext, p.status = "new" ∧ p.strength = 0 := by
  induction ws with
  | nil =>
    intro s n
    exact ⟨[], by simp [lazyInitLoop], by simp⟩
  | cons u t ih =>
    intro s n
    cases hd : dictGet s u.id with
    | some p =>
      obtain ⟨ext, he, hp⟩ := ih s n
      exact ⟨ext, by simp only [lazyInitLoop, hd]; exact he, hp⟩
    | none =>
      obtain ⟨ext, he, hp⟩ := ih (s ++ [freshRecord n now u.id]) (n + 1)
      refine ⟨freshRecord n now u.id :: ext, ?_, ?_⟩
      · simp only [lazyInitLoop, hd]
        rw [he, List.append_assoc]
        rfl
      · intro p hp2
        rcases List.mem_cons.mp hp2 with h1 | h1
        · rw [h1]
          exact ⟨rfl, rfl⟩
        · exact hp p h1

/-- Every catalog word has a progress record after lazy initialization. -/
theorem lazyInit_covers (now : Nat) (ws : List Word) :
    ∀ (s : ProgressStore) (n : Nat), ∀ w ∈ ws,
      dictGet (lazyInitLoop now ws s n).1 w.id ≠ none := by
  induction ws with
  | nil =>
    intro s n w hw
    cases hw
  | cons u t ih =>
    intro s n w hw
    rcases List.mem_cons.mp hw with h1 | h1
    · subst h1
      cases hd : dictGet s w.id with
      | some p =>
        simp only [lazyInitLoop, hd]
        obtain ⟨ext, he, _⟩ := lazyInit_append now t s n
        rw [he, dictGet_append, hd]
        cases dictGet ext w.id <;> simp [Option.or]
      | none =>
        simp only [lazyInitLoop, hd]
        obtain ⟨ext, he, _⟩ :=
          lazyInit_append now t (s ++ [freshRecord n now w.id]) (n + 1)
        rw [he, dictGet_append, dictGet_append]
        have hf : dictGet [freshRecord n now w.id] w.id
            = some (freshRecord n now w.id) := by
          simp [dictGet, freshRecord, List.filter]
        rw [hf]
        cases dictGet ext w.id <;> simp [Option.or]
    · cases hd : dictGet s u.id with
      | some p =>
        simp only [lazyInitLoop, hd]
        exact ih s n w h1
      | none =>
        simp only [lazyInitLoop, hd]
        exact ih (s ++ [freshRecord n now u.id]) (n + 1) w h1

/-- Lazy initialization changes nothing when every catalog word already has
a record. -/
theorem lazyInit_id (now : Nat) (ws : List Word) :
    ∀ (s : ProgressStore) (n : Nat), (∀ w ∈ ws, dictGet s w.id ≠ none) →
      lazyInitLoop now ws s n = (s, n) := by
  induction ws with
  | nil =>
    intro s n _
    rfl
  | cons u t ih =>
    intro s n h
    cases hd : dictGet s u.id with
    | none => exact absurd hd (h u (List.mem_cons_self u t))
    | some p =>
      simp only [lazyInitLoop, hd]
      exact ih s n (fun w hw => h w (List.mem_cons_of_mem _ hw))

/-- C3: the batch is the truncation (by `limit`) of all `new` words in
catalog order, then the `learning` words reordered into a list that is
ascending by strength and keeps catalog order among equal strengths
(stable sort), then all `known` words in catalog order; on the spec's
example catalog (W1 new, W2 learning 3, W3 learning 1, W4 known) limit 4
returns exactly W1, W3, W2, W4 and limit 2 returns exactly W1, W3. -/
theorem C3_batch_order :
    ((get_flashcards 4 exWords exStore 0 0).1.map FlashcardResponse.id =
      ["w1", "w3", "w2", "w4"]) ∧
    ((get_flashcards 2 exWords exStore 0 0).1.map FlashcardResponse.id =
      ["w1", "w3"]) ∧
    (∀ (words : List Word) (s0 : ProgressStore) (limit : Int) (now n : Nat),
      ∃ ls : List Word,
        (get_flashcards limit words s0 now n).1.map FlashcardResponse.id =
          (pySlice
            ((words.filter (fun w =>
                statusGet (lazyInitLoop now words s0 n).1 w.id == some "new")) ++
              ls ++
              (words.filter (fun w =>
                statusGet (lazyInitLoop now words s0 n).1 w.id == some "known")))
            limit).map Word.id ∧
        List.Perm ls (words.filter (fun w =>
          statusGet (lazyInitLoop now words s0 n).1 w.id == some "learning")) ∧
        List.Sorted (strengthLE (lazyInitLoop now words s0 n).1) ls ∧
        (∀ c : Int, ls.filter (fun w =>
            strengthGet (lazyInitLoop now words s0 n).1 w.id == c) =
          (words.filter (fun w =>
            statusGet (lazyInitLoop now words s0 n).1 w.id == some "learning")).filter
            (fun w => strengthGet (lazyInitLoop now words s0 n).1 w.id == c))) := by
  refine ⟨by decide, by decide, ?_⟩
  intro words s0 limit now n
  refine ⟨List.insertionSort (strengthLE (lazyInitLoop now words s0 n).1)
    (words.filter (fun w =>
      statusGet (lazyInitLoop now words s0 n).1 w.id == some "learning")),
    ?_, ?_, ?_, ?_⟩
  · rw [get_flashcards_eq, map_id_mkFlashcard]
    rfl
  · exact List.perm_insertionSort _ _
  · exact List.sorted_insertionSort _ _
  · intro c
    apply filter_insertionSort
    intro x _ hpx y _ hr
    have hxc : strengthGet (lazyInitLoop now words s0 n).1 x.id = c := by
      simpa using hpx
    have hlt : strengthGet (lazyInitLoop now words s0 n).1 y.id <
        strengthGet (lazyInitLoop now words s0 n).1 x.id := by
      rw [strengthLE] at hr
      omega
    have hne : strengthGet (lazyInitLoop now words s0 n).1 y.id ≠ c := by
      omega
    simpa using hne

/-- The last element of a list is a member. -/
theorem mem_of_getLast?_eq_some {l : List α} {a : α} (h : l.getLast? = some a) :
    a ∈ l := by
  obtain ⟨hne, he⟩ := List.mem_getLast?_eq_getLast (Option.mem_def.mpr h)
  rw [he]
  exact List.getLast_mem hne

/-- A record found by the dict lookup is in the store. -/
theorem dictGet_mem {s : ProgressStore} {w : String} {p : WordProgressDoc}
    (h : dictGet s w = some p) : p ∈ s :=
  List.mem_of_mem_filter (mem_of_getLast?_eq_some h)

/-- Two distinct status strings cannot both match a word's status. -/
theorem status_filters_exclusive (s : ProgressStore) (a b : String) (hab : a ≠ b) :
    ∀ w : Word, ¬((statusGet s w.id == some a) = true ∧
      (statusGet s w.id == some b) = true) := by
  rintro w ⟨h1, h2⟩
  rw [beq_iff_eq] at h1 h2
  rw [h1] at h2
  exact hab (Option.some.inj h2)

/-- The priority list never exceeds the catalog in length. -/
theorem combinedBatch_length_le (words : List Word) (s : ProgressStore) :
    (combinedBatch words s).length ≤ words.length := by
  unfold combinedBatch
  rw [List.length_append, List.length_append, List.length_insertionSort]
  exact three_filter_length_le _ _ _ words
    (status_filters_exclusive s "new" "learning" (by decide))
    (status_filters_exclusive s "new" "known" (by decide))
    (status_filters_exclusive s "learning" "known" (by decide))

/-- After lazy initialization every catalog word has one of the three
statuses, provided every pre-existing record does. -/
theorem lazyInit_status_total (words : List Word) (s0 : ProgressStore)
    (now n : Nat)
    (hs0 : ∀ p ∈ s0, p.status = "new" ∨ p.status = "learning" ∨ p.status = "known") :
    ∀ w ∈ words,
      (statusGet (lazyInitLoop now words s0 n).1 w.id == some "new") = true ∨
      (statusGet (lazyInitLoop now words s0 n).1 w.id == some "learning") = true ∨
      (statusGet (lazyInitLoop now words s0 n).1 w.id == some "known") = true := by
  intro w hw
  obtain ⟨ext, he, hext⟩ := lazyInit_append now words s0 n
  have hc := lazyInit_covers now words s0 n w hw
  cases hd : dictGet (lazyInitLoop now words s0 n).1 w.id with
  | none => exact absurd hd hc
  | some p =>
    have hmem : p ∈ s0 ++ ext := he ▸ dictGet_mem hd
    have hval : p.status = "new" ∨ p.status = "learning" ∨ p.status = "known" := by
      rcases List.mem_append.mp hmem with h1 | h1
      · exact hs0 p h1
      · exact Or.inl (hext p h1).1
    have hstat : statusGet (lazyInitLoop now words s0 n).1 w.id = some p.status := by
      rw [statusGet, hd]
      rfl
    rcases hval with h | h | h
    · exact Or.inl (by rw [hstat, h]; rfl)
    · exact Or.inr (Or.inl (by rw [hstat, h]; rfl))
    · exact Or.inr (Or.inr (by rw [hstat, h]; rfl))

/-- C5 counterexample: the claim says every `limit ≤ 0` yields an empty
batch, but Python slicing sends a negative limit to all-but-the-last
`-limit` entries: on the example catalog, `limit = -1` returns three
flashcards. -/
theorem C5_counterexample :
    ¬ ((get_flashcards (-1) exWords exStore 0 0).1 = []) := by decide

/-- C5 amended: `limit = 0` and an empty catalog yield an empty batch, and
a limit at least the catalog size yields every word exactly once (in
priority order, by C3); but a NEGATIVE limit is Python slicing — it keeps
the full priority list minus its last `-limit` entries rather than
returning an empty batch. -/
theorem C5_amended_limits :
    (∀ (words : List Word) (s0 : ProgressStore) (now n : Nat),
        (get_flashcards 0 words s0 now n).1 = []) ∧
    (∀ (s0 : ProgressStore) (limit : Int) (now n : Nat),
        (get_flashcards limit [] s0 now n).1 = []) ∧
    (∀ (words : List Word) (s0 : ProgressStore) (now n : Nat) (limit : Int),
        (∀ p ∈ s0, p.status = "new" ∨ p.status = "learning" ∨ p.status = "known") →
        (words.length : Int) ≤ limit →
        List.Perm ((get_flashcards limit words s0 now n).1.map FlashcardResponse.id)
          (words.map Word.id)) ∧
    (∀ (words : List Word) (s0 : ProgressStore) (now n : Nat) (limit : Int),
        limit < 0 →
        (get_flashcards limit words s0 now n).1 =
          ((get_flashcards (words.length : Int) words s0 now n).1).take
            ((get_flashcards (words.length : Int) words s0 now n).1.length
              - limit.natAbs)) := by
  refine ⟨?_, ?_, ?_, ?_⟩
  · intro words s0 now n
    rw [get_flashcards_eq]
    simp [pySlice]
  · intro s0 limit now n
    rw [get_flashcards_eq]
    simp [combinedBatch, pySlice]
  · intro words s0 now n limit hs0 hlim
    rw [get_flashcards_eq, map_id_mkFlashcard]
    have hle : ((combinedBatch words (lazyInitLoop now words s0 n).1).length : Int)
        ≤ limit := by
      have := combinedBatch_length_le words (lazyInitLoop now words s0 n).1
      omega
    rw [pySlice_of_le _ _ hle]
    unfold combinedBatch
    refine List.Perm.map Word.id ?_
    refine List.Perm.trans ?_
      (three_filter_perm _ _ _ words
        (lazyInit_status_total words s0 now n hs0)
        (status_filters_exclusive _ "new" "learning" (by decide))
        (status_filters_exclusive _ "new" "known" (by decide))
        (status_filters_exclusive _ "learning" "known" (by decide)))
    exact List.Perm.append
      (List.Perm.append (List.Perm.refl _) (List.perm_insertionSort _ _))
      (List.Perm.refl _)
  · intro words s0 now n limit hneg
    rw [get_flashcards_eq, get_flashcards_eq]
    have hle : ((combinedBatch words (lazyInitLoop now words s0 n).1).length : Int)
        ≤ (words.length : Int) := by
      have := combinedBatch_length_le words (lazyInitLoop now words s0 n).1
      omega
    rw [pySlice_of_le _ _ hle, List.length_map]
    unfold pySlice
    rw [if_neg (by omega), ← List.map_take]
    have heq : (-limit).toNat = limit.natAbs := by omega
    rw [heq]

/-- Witness for C5 at a concrete input: a limit larger than the catalog
returns every word exactly once. -/
theorem C5_amended_limits_witness :
    List.Perm ((get_flashcards 9 exWords exStore 0 0).1.map FlashcardResponse.id)
      (exWords.map Word.id) :=
  C5_amended_limits.2.2.1 exWords exStore 0 0 9 (by decide) (by decide)

/-- Record counts add over store concatenation. -/
theorem countFor_append (s t : ProgressStore) (w : String) :
    countFor (s ++ t) w = countFor s w + countFor t w := by
  unfold countFor
  rw [List.filter_append, List.length_append]

/-- A word has no dict entry exactly when it has no record. -/
theorem dictGet_eq_none_iff (s : ProgressStore) (w : String) :
    dictGet s w = none ↔ countFor s w = 0 := by
  unfold dictGet countFor
  rw [List.getLast?_eq_none_iff, List.length_eq_zero]

/-- Per-word record counts after lazy initialization: a word with no record
that is in the catalog ends with exactly one record; every other count is
unchanged.  In particular lazy initialization never creates a second
record for the same word. -/
theorem lazyInit_count (now : Nat) (ws : List Word) :
    ∀ (s : ProgressStore) (n : Nat) (w : String),
      countFor (lazyInitLoop now ws s n).1 w =
        if countFor s w = 0 ∧ w ∈ ws.map Word.id then 1 else countFor s w := by
  induction ws with
  | nil =>
    intro s n w
    simp [lazyInitLoop]
  | cons u t ih =>
    intro s n w
    cases hd : dictGet s u.id with
    | some p =>
      simp only [lazyInitLoop, hd]
      rw [ih s n w]
      have hc : countFor s u.id ≠ 0 := by
        intro h
        rw [← dictGet_eq_none_iff] at h
        rw [h] at hd
        cases hd
      by_cases hw : w = u.id
      · subst hw
        simp [hc]
      · have hmem : (w ∈ (u :: t).map Word.id) ↔ (w ∈ t.map Word.id) := by
          rw [List.map_cons, List.mem_cons]
          constructor
          · rintro (h | h)
            · exact absurd h hw
            · exact h
          · exact Or.inr
        simp only [hmem]
    | none =>
      simp only [lazyInitLoop, hd]
      rw [ih _ _ w]
      have hc0 : countFor s u.id = 0 := (dictGet_eq_none_iff s u.id).mp hd
      by_cases hw : w = u.id
      · subst hw
        have h1 : countFor [freshRecord n now u.id] u.id = 1 := by
          simp [countFor, freshRecord, List.filter]
        rw [countFor_append, h1, hc0]
        simp [List.map_cons]
      · have hbeq : (u.id == w) = false :=
          beq_eq_false_iff_ne.mpr (Ne.symm hw)
        have h0 : countFor [freshRecord n now u.id] w = 0 := by
          simp [countFor, freshRecord, List.filter, hbeq]
        have hmem : (w ∈ (u :: t).map Word.id) ↔ (w ∈ t.map Word.id) := by
          rw [List.map_cons, List.mem_cons]
          constructor
          · rintro (h | h)
            · exact absurd h hw
            · exact h
          · exact Or.inr
        rw [countFor_append, h0, Nat.add_zero]
        simp only [hmem]

/-- C7: lazy initialization in `NextBatch` is idempotent — a second call on
the store produced by the first (with any clock or uuid supply) returns
the same batch and the same store, the first call only appends (so no
existing record's status or strength changes), and per-word record counts
show at most one record is ever created per word, never two. -/
theorem C7_lazy_init_idempotent (words : List Word) (s0 : ProgressStore)
    (limit : Int) (now n now2 n2 : Nat) :
    ((get_flashcards limit words
        ((get_flashcards limit words s0 now n).2.1) now2 n2).1 =
      (get_flashcards limit words s0 now n).1) ∧
    ((get_flashcards limit words
        ((get_flashcards limit words s0 now n).2.1) now2 n2).2.1 =
      (get_flashcards limit words s0 now n).2.1) ∧
    (∃ ext, (get_flashcards limit words s0 now n).2.1 = s0 ++ ext) ∧
    (∀ w : String, countFor ((get_flashcards limit words s0 now n).2.1) w =
      if countFor s0 w = 0 ∧ w ∈ words.map Word.id then 1
      else countFor s0 w) := by
  have hcov : ∀ w ∈ words,
      dictGet ((get_flashcards limit words s0 now n).2.1) w.id ≠ none := by
    intro w hw
    rw [get_flashcards_eq]
    exact lazyInit_covers now words s0 n w hw
  have hid : lazyInitLoop now2 words ((get_flashcards limit words s0 now n).2.1) n2
      = ((get_flashcards limit words s0 now n).2.1, n2) :=
    lazyInit_id now2 words _ n2 hcov
  refine ⟨?_, ?_, ?_, ?_⟩
  · conv_lhs => rw [get_flashcards_eq]
    rw [hid]
    conv_rhs => rw [get_flashcards_eq]
    rfl
  · conv_lhs => rw [get_flashcards_eq]
    rw [hid]
  · obtain ⟨ext, he, _⟩ := lazyInit_append now words s0 n
    exact ⟨ext, by rw [get_flashcards_eq]; exact he⟩
  · intro w
    rw [get_flashcards_eq]
    exact lazyInit_count now words s0 n w

/-- Under unique record ids, `$set` keyed by id acts pointwise on the
store. -/
theorem updateOneById_eq_map (i st : String) (stg : Int) (now : Nat) :
    ∀ s : ProgressStore, (s.map WordProgressDoc.id).Nodup →
      updateOneById i st stg now s =
        s.map (fun p => if p.id = i
          then { p with status := st, strength := stg, updated_at := now }
          else p) := by
  intro s
  induction s with
  | nil =>
    intro _
    rfl
  | cons q qs ih =>
    intro hn
    rw [List.map_cons, List.nodup_cons] at hn
    by_cases hqi : q.id = i
    · simp only [updateOneById, if_pos hqi, List.map_cons]
      congr 1
      have hall : ∀ p ∈ qs,
          (if p.id = i
            then { p with status := st, strength := stg, updated_at := now }
            else p) = p := by
        intro p hp
        rw [if_neg]
        intro he
        exact hn.1 (by rw [hqi, ← he]; exact List.mem_map_of_mem WordProgressDoc.id hp)
      rw [List.map_congr_left hall, List.map_id']
    · simp only [updateOneById, if_neg hqi, List.map_cons]
      rw [ih hn.2]

/-- `getD` below the length commutes with `map`. -/
theorem getD_map_of_lt (f : α → α) (l : List α) (j : Nat) (d : α)
    (h : j < l.length) :
    (l.map f).getD j d = f (l.getD j d) := by
  have h2 : j < (l.map f).length := by rw [List.length_map]; exact h
  rw [List.getD_eq_getElem l d h, List.getD_eq_getElem _ d h2]
  simp

/-- `getD` below the length is a member. -/
theorem getD_mem_of_lt (l : List α) (j : Nat) (d : α) (h : j < l.length) :
    l.getD j d ∈ l := by
  rw [List.getD_eq_getElem l d h]
  exact List.getElem_mem h

/-- C9: `RecordResponse` touches nothing beyond the target word's progress
record (the catalog is a read-only input of the embedded operation, as the
source only ever calls `find_one` on the words collection): the store keeps
its length, every record keeps its id, word id and next-review timestamp,
and every record belonging to a different word is completely unchanged.
Hypotheses: record ids are unique and nonempty (every record the system
creates carries a fresh uuid id), and the fresh uuid of this call does not
collide with a stored id. -/
theorem C9_no_other_side_effects (word_id : String) (known : Bool)
    (words : List Word) (s : ProgressStore) (now n : Nat)
    (hids : (s.map WordProgressDoc.id).Nodup)
    (hne : ∀ p ∈ s, p.id ≠ "")
    (hfresh : ∀ p ∈ s, p.id ≠ uuid4 n) :
    ((update_word_progress word_id known words s now n).2.1).length = s.length ∧
    (∀ j, j < s.length →
      (((update_word_progress word_id known words s now n).2.1).getD j dfltDoc).id
          = (s.getD j dfltDoc).id ∧
      (((update_word_progress word_id known words s now n).2.1).getD j
          dfltDoc).word_id = (s.getD j dfltDoc).word_id ∧
      (((update_word_progress word_id known words s now n).2.1).getD j
          dfltDoc).next_review = (s.getD j dfltDoc).next_review ∧
      ((s.getD j dfltDoc).word_id ≠ word_id →
        ((update_word_progress word_id known words s now n).2.1).getD j dfltDoc
          = s.getD j dfltDoc)) := by
  cases hw : words.find? (fun w => w.id == word_id) with
  | none =>
    have hstore : (update_word_progress word_id known words s now n).2.1 = s := by
      simp only [update_word_progress, hw]
    rw [hstore]
    exact ⟨rfl, fun j hj => ⟨rfl, rfl, rfl, fun _ => rfl⟩⟩
  | some w =>
    cases hf : findOneByWordId s word_id with
    | none =>
      have hid : (freshRecord n now word_id).id ≠ "" := uuid4_ne_empty n
      have hstore : (update_word_progress word_id known words s now n).2.1 = s := by
        simp only [update_word_progress, hw, hf]
        rw [if_pos hid]
        rw [updateOneById_eq_map _ _ _ _ s hids]
        have hall : ∀ p ∈ s,
            (if p.id = (freshRecord n now word_id).id
              then { p with
                      status := newStatus known
                        (newStrength known (freshRecord n now word_id).strength),
                      strength := newStrength known (freshRecord n now word_id).strength,
                      updated_at := now }
              else p) = p := by
          intro p hp
          exact if_neg (hfresh p hp)
        rw [List.map_congr_left hall, List.map_id']
      rw [hstore]
      exact ⟨rfl, fun j hj => ⟨rfl, rfl, rfl, fun _ => rfl⟩⟩
    | some q =>
      have hqmem : q ∈ s := List.mem_of_find?_eq_some hf
      have hqid : q.id ≠ "" := hne q hqmem
      have hqw : q.word_id = word_id := by
        have := List.find?_some hf
        simpa using this
      have hstore : (update_word_progress word_id known words s now n).2.1 =
          s.map (fun p => if p.id = q.id
            then { p with
                    status := newStatus known (newStrength known q.strength),
                    strength := newStrength known q.strength,
                    updated_at := now }
            else p) := by
        simp only [update_word_progress, hw, hf]
        rw [if_pos hqid]
        rw [updateOneById_eq_map _ _ _ _ s hids]
      rw [hstore]
      refine ⟨List.length_map s _, fun j hj => ?_⟩
      rw [getD_map_of_lt _ _ _ _ hj]
      have hpmem : s.getD j dfltDoc ∈ s := getD_mem_of_lt s j dfltDoc hj
      by_cases hpi : (s.getD j dfltDoc).id = q.id
      · have hpq : s.getD j dfltDoc = q :=
          List.inj_on_of_nodup_map hids hpmem hqmem hpi
        rw [if_pos hpi]
        refine ⟨rfl, rfl, rfl, fun hcon => ?_⟩
        exact absurd (by rw [hpq]; exact hqw) hcon
      · rw [if_neg hpi]
        exact ⟨rfl, rfl, rfl, fun _ => rfl⟩

/-- Witness for C9 at a concrete input: updating `w2` preserves the store
length and leaves the record of `w3` (position 1) untouched. -/
theorem C9_no_other_side_effects_witness :
    ((update_word_progress "w2" true exWords exStore 9 0).2.1).length
        = exStore.length ∧
    ((update_word_progress "w2" true exWords exStore 9 0).2.1).getD 1 dfltDoc
        = exStore.getD 1 dfltDoc :=
  ⟨(C9_no_other_side_effects "w2" true exWords exStore 9 0 (by decide)
      (by decide) (by decide)).1,
    ((C9_no_other_side_effects "w2" true exWords exStore 9 0 (by decide)
      (by decide) (by decide)).2 1 (by decide)).2.2.2 (by decide)⟩

/-- The projection of a progress record that batch selection can observe:
word id, status and strength.  Record ids and timestamps are invisible to
the returned flashcards. -/
def sig (p : WordProgressDoc) : String × String × Int :=
  (p.word_id, p.status, p.strength)

/-- Filtering by a predicate that only reads the observable projection
commutes with that projection. -/
theorem filter_map_sig (g : WordProgressDoc → Bool)
    (hg : ∀ p q, sig p = sig q → g p = g q) :
    ∀ (s₁ s₂ : ProgressStore), s₁.map sig = s₂.map sig →
      (s₁.filter g).map sig = (s₂.filter g).map sig := by
  intro s₁
  induction s₁ with
  | nil =>
    intro s₂ h
    rw [List.map_nil] at h
    rw [List.map_eq_nil_iff.mp h.symm]
  | cons a t ih =>
    intro s₂ h
    cases s₂ with
    | nil => cases h
    | cons b t₂ =>
      rw [List.map_cons, List.map_cons] at h
      have hab : sig a = sig b := (List.cons.inj h).1
      have ht : t.map sig = t₂.map sig := (List.cons.inj h).2
      rw [List.filter_cons, List.filter_cons, hg a b hab]
      cases hb : g b with
      | true =>
        rw [if_pos rfl, if_pos rfl, List.map_cons, List.map_cons, hab, ih t₂ ht]
      | false =>
        rw [if_neg (by simp), if_neg (by simp)]
        exact ih t₂ ht

/-- The dict lookup respects the observable projection. -/
theorem dictGet_sig_congr (s₁ s₂ : ProgressStore)
    (h : s₁.map sig = s₂.map sig) (w : String) :
    (dictGet s₁ w).map sig = (dictGet s₂ w).map sig := by
  unfold dictGet
  rw [← List.getLast?_map, ← List.getLast?_map]
  congr 1
  refine filter_map_sig _ ?_ s₁ s₂ h
  intro p q hpq
  have : p.word_id = q.word_id := congrArg (fun t => t.1) hpq
  show (p.word_id == w) = (q.word_id == w)
  rw [this]

/-- The status a word shows depends only on the observable projection of
the store. -/
theorem statusGet_sig_congr (s₁ s₂ : ProgressStore)
    (h : s₁.map sig = s₂.map sig) (w : String) :
    statusGet s₁ w = statusGet s₂ w := by
  have h2 := dictGet_sig_congr s₁ s₂ h w
  unfold statusGet
  cases h1 : dictGet s₁ w <;> cases h3 : dictGet s₂ w <;>
    rw [h1, h3] at h2 <;> simp_all [sig]

/-- The strength a word shows depends only on the observable projection of
the store. -/
theorem strengthGet_sig_congr (s₁ s₂ : ProgressStore)
    (h : s₁.map sig = s₂.map sig) (w : String) :
    strengthGet s₁ w = strengthGet s₂ w := by
  have h2 := dictGet_sig_congr s₁ s₂ h w
  unfold strengthGet
  cases h1 : dictGet s₁ w <;> cases h3 : dictGet s₂ w <;>
    rw [h1, h3] at h2 <;> simp_all [sig]

/-- Lazy initialization preserves observable-projection equality of stores,
whatever clock values and uuid counters the two runs use. -/
theorem lazyInit_sig_congr (ws : List Word) :
    ∀ (s₁ s₂ : ProgressStore) (now1 n1 now2 n2 : Nat),
      s₁.map sig = s₂.map sig →
      (lazyInitLoop now1 ws s₁ n1).1.map sig
        = (lazyInitLoop now2 ws s₂ n2).1.map sig := by
  induction ws with
  | nil =>
    intro s₁ s₂ _ _ _ _ h
    exact h
  | cons u t ih =>
    intro s₁ s₂ now1 n1 now2 n2 h
    have hd := dictGet_sig_congr s₁ s₂ h u.id
    cases h1 : dictGet s₁ u.id with
    | some p =>
      cases h2 : dictGet s₂ u.id with
      | some q =>
        simp only [lazyInitLoop, h1, h2]
        exact ih s₁ s₂ now1 n1 now2 n2 h
      | none =>
        rw [h1, h2] at hd
        cases hd
    | none =>
      cases h2 : dictGet s₂ u.id with
      | some q =>
        rw [h1, h2] at hd
        cases hd
      | none =>
        simp only [lazyInitLoop, h1, h2]
        apply ih
        rw [List.map_append, List.map_append, h]
        rfl

/-- `orderedInsert` only depends on the relation extensionally. -/
theorem orderedInsert_congr (r₁ r₂ : α → α → Prop) [DecidableRel r₁]
    [DecidableRel r₂] (h : ∀ a b, r₁ a b ↔ r₂ a b) (x : α) :
    ∀ l, List.orderedInsert r₁ x l = List.orderedInsert r₂ x l := by
  intro l
  induction l with
  | nil => rfl
  | cons y ys ih =>
    by_cases hr : r₁ x y
    · rw [List.orderedInsert, List.orderedInsert, if_pos hr, if_pos ((h x y).mp hr)]
    · rw [List.orderedInsert, List.orderedInsert, if_neg hr,
        if_neg (fun hc => hr ((h x y).mpr hc)), ih]

/-- `insertionSort` only depends on the relation extensionally. -/
theorem insertionSort_congr (r₁ r₂ : α → α → Prop) [DecidableRel r₁]
    [DecidableRel r₂] (h : ∀ a b, r₁ a b ↔ r₂ a b) :
    ∀ l, List.insertionSort r₁ l = List.insertionSort r₂ l := by
  intro l
  induction l with
  | nil => rfl
  | cons x xs ih =>
    show List.orderedInsert r₁ x (List.insertionSort r₁ xs)
        = List.orderedInsert r₂ x (List.insertionSort r₂ xs)
    rw [ih, orderedInsert_congr r₁ r₂ h]

/-- Two filters over distinct statuses produce id-disjoint word lists, for
a duplicate-free catalog. -/
theorem map_id_filter_disjoint (words : List Word) (s : ProgressStore)
    (hnd : (words.map Word.id).Nodup) (a b : String) (hab : a ≠ b) :
    List.Disjoint
      ((words.filter (fun w => statusGet s w.id == some a)).map Word.id)
      ((words.filter (fun w => statusGet s w.id == some b)).map Word.id) := by
  intro x hxa hxb
  obtain ⟨wa, hwa, hxa2⟩ := List.mem_map.mp hxa
  obtain ⟨wb, hwb, hxb2⟩ := List.mem_map.mp hxb
  obtain ⟨hwa1, hwa2⟩ := List.mem_filter.mp hwa
  obtain ⟨hwb1, hwb2⟩ := List.mem_filter.mp hwb
  have heq : wa = wb :=
    List.inj_on_of_nodup_map hnd hwa1 hwb1 (by rw [hxa2, hxb2])
  subst heq
  exact status_filters_exclusive s a b hab wa ⟨hwa2, hwb2⟩

/-- C10: `NextBatch` is deterministic — the returned batch is a function of
the catalog, progress store and limit alone (the clock value and the uuid
supply used by the lazy-initialization side effect never influence it) —
and, for a duplicate-free catalog, no word appears twice in a batch. -/
theorem C10_deterministic :
    (∀ (words : List Word) (s0 : ProgressStore) (limit : Int)
        (now1 n1 now2 n2 : Nat),
        (get_flashcards limit words s0 now1 n1).1
          = (get_flashcards limit words s0 now2 n2).1) ∧
    (∀ (words : List Word) (s0 : ProgressStore) (limit : Int) (now n : Nat),
        (words.map Word.id).Nodup →
        ((get_flashcards limit words s0 now n).1.map FlashcardResponse.id).Nodup) := by
  constructor
  · intro words s0 limit now1 n1 now2 n2
    rw [get_flashcards_eq, get_flashcards_eq]
    have hsig : (lazyInitLoop now1 words s0 n1).1.map sig
        = (lazyInitLoop now2 words s0 n2).1.map sig :=
      lazyInit_sig_congr words s0 s0 now1 n1 now2 n2 rfl
    have hstat : ∀ w, statusGet (lazyInitLoop now1 words s0 n1).1 w
        = statusGet (lazyInitLoop now2 words s0 n2).1 w :=
      statusGet_sig_congr _ _ hsig
    have hstr : ∀ w, strengthGet (lazyInitLoop now1 words s0 n1).1 w
        = strengthGet (lazyInitLoop now2 words s0 n2).1 w :=
      strengthGet_sig_congr _ _ hsig
    have hcb : combinedBatch words (lazyInitLoop now1 words s0 n1).1
        = combinedBatch words (lazyInitLoop now2 words s0 n2).1 := by
      unfold combinedBatch
      rw [List.filter_congr (fun w _ => by rw [hstat w.id])]
      rw [List.filter_congr
        (fun (w : Word) _ =>
          show (statusGet (lazyInitLoop now1 words s0 n1).1 w.id == some "learning")
              = (statusGet (lazyInitLoop now2 words s0 n2).1 w.id == some "learning") by
            rw [hstat w.id])]
      rw [List.filter_congr
        (fun (w : Word) _ =>
          show (statusGet (lazyInitLoop now1 words s0 n1).1 w.id == some "known")
              = (statusGet (lazyInitLoop now2 words s0 n2).1 w.id == some "known") by
            rw [hstat w.id])]
      have hrel : ∀ a b : Word,
          strengthLE (lazyInitLoop now1 words s0 n1).1 a b ↔
            strengthLE (lazyInitLoop now2 words s0 n2).1 a b := by
        intro a b
        unfold strengthLE
        rw [hstr a.id, hstr b.id]
      rw [insertionSort_congr _ _ hrel]
    rw [hcb]
    refine List.map_congr_left ?_
    intro w _
    unfold mkFlashcard
    rw [hstat w.id, hstr w.id]
  · intro words s0 limit now n hnd
    rw [get_flashcards_eq, map_id_mkFlashcard]
    refine List.Nodup.sublist
      (List.Sublist.map Word.id (pySlice_sublist _ _)) ?_
    unfold combinedBatch
    rw [List.map_append, List.map_append]
    have hBlearn : ∀ x, x ∈ (List.insertionSort
        (strengthLE (lazyInitLoop now words s0 n).1)
        (words.filter (fun w =>
          statusGet (lazyInitLoop now words s0 n).1 w.id == some "learning"))).map
            Word.id →
        x ∈ (words.filter (fun w =>
          statusGet (lazyInitLoop now words s0 n).1 w.id == some "learning")).map
            Word.id := by
      intro x hx
      exact (((List.perm_insertionSort _ _).map Word.id).mem_iff).mp hx
    rw [List.nodup_append]
    refine ⟨?_, ?_, ?_⟩
    · rw [List.nodup_append]
      refine ⟨?_, ?_, ?_⟩
      · exact hnd.sublist (List.Sublist.map Word.id (List.filter_sublist words))
      · rw [((List.perm_insertionSort _ _).map Word.id).nodup_iff]
        exact hnd.sublist (List.Sublist.map Word.id (List.filter_sublist words))
      · intro x hxa hxb
        exact map_id_filter_disjoint words _ hnd "new" "learning" (by decide)
          hxa (hBlearn x hxb)
    · exact hnd.sublist (List.Sublist.map Word.id (List.filter_sublist words))
    · intro x hxab hxc
      rcases List.mem_append.mp hxab with hxa | hxb
      · exact map_id_filter_disjoint words _ hnd "new" "known" (by decide)
          hxa hxc
      · exact map_id_filter_disjoint words _ hnd "learning" "known" (by decide)
          (hBlearn x hxb) hxc

/-- Witness for C10 at a concrete input: the example catalog has unique
ids, so the batch of limit 4 repeats no word. -/
theorem C10_deterministic_witness :
    ((get_flashcards 4 exWords exStore 0 0).1.map FlashcardResponse.id).Nodup :=
  C10_deterministic.2 exWords exStore 4 0 0 (by decide)

end Frenchy
